import Mathlib

/-!
# Verification of `mypythontools` (path / version / pipeline utilities)

Shallow embedding of the repository's pure logic:

* Python `str` values are modelled as `List Char` wherever the code
  manipulates them character-by-character (the version editor), and as
  `String` where they are only compared for equality (path components,
  directory entry names).
* Python exceptions are modelled with `Except` / `Option` results.
* Filesystem and subprocess effects are modelled by explicit state /
  environment records and by action traces.
-/

namespace Mypythontools

/-- Python strings, modelled as lists of characters. -/
abbrev PyStr := List Char

/-! ## Python string primitives used by the source

`str.split(sep)` / `sep.join(parts)` / `str.startswith(p)` / `str.strip()`
and `int(s)` / `str(n)`, modelled faithfully for single-character
separators (the source only splits on `'"'`, `"'"` and `"."`). -/

/-- Python `s.split(sep)` for a one-character separator: split on every
occurrence, keeping empty pieces (`"a..b".split(".") == ["a", "", "b"]`). -/
def pySplit (sep : Char) : PyStr → List PyStr
  | [] => [[]]
  | c :: rest =>
    if c = sep then [] :: pySplit sep rest
    else
      match pySplit sep rest with
      | [] => [[c]]
      | piece :: pieces => (c :: piece) :: pieces

/-- Python `sep.join(parts)` for a one-character separator. -/
def pyJoin (sep : Char) : List PyStr → PyStr
  | [] => []
  | [p] => p
  | p :: ps => p ++ sep :: pyJoin sep ps

/-- Python `s.startswith(p)` (string first, candidate prefix second). -/
def startswith : PyStr → PyStr → Bool
  | _, [] => true
  | [], _ :: _ => false
  | b :: s, a :: p => a = b && startswith s p

/-- Python `s.strip()`: remove leading and trailing whitespace. -/
def pyStrip (s : PyStr) : PyStr :=
  (((s.dropWhile Char.isWhitespace).reverse.dropWhile Char.isWhitespace)).reverse

/-- Tail of the digit grammar of Python `int()`: after the first digit,
digits may be separated by single underscores (`1_0` parses, `1__0`,
`1_` do not).  An underscore must be immediately followed by a digit. -/
def pyDigitTail : List Char → Bool
  | [] => true
  | c :: rest =>
    if c = '_' then (rest.head?.elim false Char.isDigit) && pyDigitTail rest
    else c.isDigit && pyDigitTail rest

/-- A nonempty run of digits with optional single underscore separators. -/
def pyDigitRun : List Char → Bool
  | [] => false
  | c :: rest => c.isDigit && pyDigitTail rest

/-- Decimal value of a digit string, skipping underscore separators. -/
def digitsVal (s : List Char) : Nat :=
  s.foldl (fun a c => if c = '_' then a else 10 * a + (c.toNat - 48)) 0

/-- Core of Python `int(s)` after whitespace stripping: optional sign,
then a digit run (with underscore grouping). -/
def pyIntCore : PyStr → Option Int
  | [] => none
  | c :: rest =>
    if c = '+' then (if pyDigitRun rest then some (digitsVal rest) else none)
    else if c = '-' then (if pyDigitRun rest then some (-(digitsVal rest : Int)) else none)
    else if pyDigitRun (c :: rest) then some (digitsVal (c :: rest)) else none

/-- Python `int(s)`: strip whitespace, optional sign, then a digit run
(with underscore grouping).  `none` models the `ValueError` raised on a
non-numeric string.  (Non-ASCII digits and non-decimal bases are not used
by this repository and are not modelled.) -/
def pyInt? (s : PyStr) : Option Int :=
  pyIntCore (pyStrip s)

/-- Character of a decimal digit (`digitChar 3 = '3'`). -/
def digitChar (d : Nat) : Char := Char.ofNat (48 + d)

/-- Decimal rendering worker; `fuel ≥ n` makes it total (each step divides
`n` by ten). -/
def natStrGo : Nat → Nat → PyStr
  | 0, _ => []
  | fuel + 1, n => if n = 0 then [] else natStrGo fuel (n / 10) ++ [digitChar (n % 10)]

/-- Python `str(n)` for a natural number: canonical decimal digits. -/
def natStr (n : Nat) : PyStr :=
  if n = 0 then ['0'] else natStrGo n n

/-- Python `str(n)` for an integer. -/
def pyStrOfInt (n : Int) : PyStr :=
  if n < 0 then '-' :: natStr n.natAbs else natStr n.toNat

/-! ### Facts about the string primitives -/

theorem pySplit_ne_nil (sep : Char) (l : PyStr) : pySplit sep l ≠ [] := by
  induction l with
  | nil => simp [pySplit]
  | cons c rest ih =>
    simp only [pySplit]
    split
    · simp
    · split <;> simp_all

/-- `pyJoin` of two or more pieces. -/
theorem pyJoin_cons_cons (sep : Char) (p q : PyStr) (ps : List PyStr) :
    pyJoin sep (p :: q :: ps) = p ++ sep :: pyJoin sep (q :: ps) := rfl

theorem pyJoin_pySplit (sep : Char) (l : PyStr) : pyJoin sep (pySplit sep l) = l := by
  induction l with
  | nil => rfl
  | cons c rest ih =>
    simp only [pySplit]
    obtain ⟨piece, pieces, hp⟩ : ∃ piece pieces, pySplit sep rest = piece :: pieces := by
      rcases h : pySplit sep rest with _ | ⟨piece, pieces⟩
      · exact absurd h (pySplit_ne_nil sep rest)
      · exact ⟨piece, pieces, rfl⟩
    split
    · rename_i hc
      subst hc
      rw [hp] at ih ⊢
      rw [pyJoin_cons_cons, List.nil_append, ih]
    · rw [hp] at ih ⊢
      cases pieces with
      | nil => simpa [pyJoin] using ih
      | cons q ps =>
        rw [pyJoin_cons_cons] at ih ⊢
        simp [ih]

theorem not_mem_of_mem_pySplit {sep : Char} {l p : PyStr}
    (h : p ∈ pySplit sep l) : sep ∉ p := by
  induction l generalizing p with
  | nil => simp [pySplit] at h; simp [h]
  | cons c rest ih =>
    simp only [pySplit] at h
    split at h
    · rcases List.mem_cons.1 h with h | h
      · simp [h]
      · exact ih h
    · rename_i hc
      obtain ⟨piece, pieces, hp⟩ : ∃ piece pieces, pySplit sep rest = piece :: pieces := by
        rcases h' : pySplit sep rest with _ | ⟨piece, pieces⟩
        · exact absurd h' (pySplit_ne_nil sep rest)
        · exact ⟨piece, pieces, rfl⟩
      rw [hp] at h
      rcases List.mem_cons.1 h with h | h
      · subst h
        intro hmem
        rcases List.mem_cons.1 hmem with h | h
        · exact hc h.symm
        · exact ih (hp ▸ List.mem_cons_self piece pieces) h
      · exact ih (hp ▸ List.mem_cons_of_mem piece h)

theorem pySplit_of_not_mem {sep : Char} {l : PyStr} (h : sep ∉ l) :
    pySplit sep l = [l] := by
  induction l with
  | nil => rfl
  | cons c rest ih =>
    have hc : ¬c = sep := fun e => h (e ▸ List.mem_cons_self c rest)
    have hrest : sep ∉ rest := fun hm => h (List.mem_cons_of_mem c hm)
    simp only [pySplit, if_neg hc, ih hrest]

theorem pySplit_append_sep {sep : Char} {a : PyStr} (b : PyStr) (h : sep ∉ a) :
    pySplit sep (a ++ sep :: b) = a :: pySplit sep b := by
  induction a with
  | nil => simp [pySplit]
  | cons c a' ih =>
    have hc : ¬c = sep := fun e => h (e ▸ List.mem_cons_self c a')
    have ha' : sep ∉ a' := fun hm => h (List.mem_cons_of_mem c hm)
    simp only [List.cons_append, pySplit, if_neg hc, List.append_eq, ih ha']

theorem pySplit_pyJoin {sep : Char} {ps : List PyStr} (h0 : ps ≠ [])
    (h : ∀ p ∈ ps, sep ∉ p) : pySplit sep (pyJoin sep ps) = ps := by
  induction ps with
  | nil => exact absurd rfl h0
  | cons p ps ih =>
    cases ps with
    | nil =>
      simpa [pyJoin] using pySplit_of_not_mem (h p (List.mem_cons_self p []))
    | cons q ps' =>
      rw [pyJoin_cons_cons,
        pySplit_append_sep _ (h p (List.mem_cons_self p _)),
        ih (by simp) (fun r hr => h r (List.mem_cons_of_mem p hr))]

theorem mem_pyJoin_of_mem {sep : Char} {ps : List PyStr} {p : PyStr} {c : Char}
    (hp : p ∈ ps) (hc : c ∈ p) : c ∈ pyJoin sep ps := by
  induction ps with
  | nil => simp at hp
  | cons q ps ih =>
    cases ps with
    | nil =>
      simp only [List.mem_singleton] at hp
      subst hp
      simpa [pyJoin] using hc
    | cons r ps' =>
      rw [pyJoin_cons_cons]
      rcases List.mem_cons.1 hp with h | h
      · exact List.mem_append_left _ (h ▸ hc)
      · exact List.mem_append_right _ (List.mem_cons_of_mem sep (ih h))

theorem mem_pyJoin_cases {sep : Char} {ps : List PyStr} {c : Char}
    (h : c ∈ pyJoin sep ps) : c = sep ∨ ∃ p ∈ ps, c ∈ p := by
  induction ps with
  | nil => simp [pyJoin] at h
  | cons q ps ih =>
    cases ps with
    | nil =>
      right
      exact ⟨q, List.mem_cons_self q [], by simpa [pyJoin] using h⟩
    | cons r ps' =>
      rw [pyJoin_cons_cons] at h
      rcases List.mem_append.1 h with h | h
      · exact Or.inr ⟨q, List.mem_cons_self q _, h⟩
      · rcases List.mem_cons.1 h with h | h
        · exact Or.inl h
        · rcases ih h with h | ⟨p, hp, hcp⟩
          · exact Or.inl h
          · exact Or.inr ⟨p, List.mem_cons_of_mem q hp, hcp⟩

theorem sep_mem_pyJoin {sep : Char} {q r : PyStr} (ps : List PyStr) :
    sep ∈ pyJoin sep (q :: r :: ps) := by
  rw [pyJoin_cons_cons]
  exact List.mem_append_right _ (List.mem_cons_self sep _)

theorem startswith_iff {s p : PyStr} : startswith s p = true ↔ p <+: s := by
  induction s generalizing p with
  | nil =>
    cases p with
    | nil => simp [startswith]
    | cons a p => simp [startswith]
  | cons b s ih =>
    cases p with
    | nil => simp [startswith]
    | cons a p =>
      rw [startswith, List.cons_prefix_cons, Bool.and_eq_true, decide_eq_true_eq, ih]

theorem startswith_append (t : PyStr) {s p : PyStr}
    (h : startswith s p = true) : startswith (s ++ t) p = true := by
  rw [startswith_iff] at h ⊢
  exact h.trans (List.prefix_append s t)

theorem startswith_of_append_sep {sep : Char} {s t p : PyStr} (hsep : sep ∉ p)
    (h : startswith (s ++ sep :: t) p = true) : startswith s p = true := by
  rw [startswith_iff] at h ⊢
  rcases List.prefix_or_prefix_of_prefix h (List.prefix_append s (sep :: t)) with h' | h'
  · exact h'
  · obtain ⟨r, rfl⟩ := h'
    cases r with
    | nil => simp
    | cons c r' =>
      exfalso
      have hr : c :: r' <+: sep :: t := (List.prefix_append_right_inj s).1 h
      have : c = sep := (List.cons_prefix_cons.1 hr).1
      exact hsep (List.mem_append_right s (this ▸ List.mem_cons_self c r'))

/-! ### Facts about the numeric primitives -/

theorem digitChar_isDigit {d : Nat} (h : d < 10) : (digitChar d).isDigit = true := by
  interval_cases d <;> decide

theorem digitChar_toNat {d : Nat} (h : d < 10) : (digitChar d).toNat = 48 + d := by
  interval_cases d <;> decide

theorem isDigit_ne_sep {c : Char} (h : c.isDigit = true) :
    c ≠ '.' ∧ c ≠ '"' ∧ c ≠ '\'' ∧ c ≠ '_' ∧ c ≠ '+' ∧ c ≠ '-' := by
  refine ⟨?_, ?_, ?_, ?_, ?_, ?_⟩ <;> (rintro rfl; simp at h)

theorem isDigit_not_whitespace {c : Char} (h : c.isDigit = true) :
    c.isWhitespace = false := by
  by_contra hw
  rw [Bool.not_eq_false] at hw
  simp only [Char.isWhitespace, Bool.or_eq_true, decide_eq_true_eq] at hw
  rcases hw with ((h1 | h1) | h1) | h1 <;> subst h1 <;> simp [Char.isDigit] at h

theorem mem_natStrGo_isDigit {fuel n : Nat} {c : Char}
    (h : c ∈ natStrGo fuel n) : c.isDigit = true := by
  induction fuel generalizing n with
  | zero => simp [natStrGo] at h
  | succ fuel ih =>
    simp only [natStrGo] at h
    split at h
    · simp at h
    · rcases List.mem_append.1 h with h | h
      · exact ih h
      · rw [List.mem_singleton.1 h]
        exact digitChar_isDigit (Nat.mod_lt n (by norm_num))

theorem mem_natStr_isDigit {n : Nat} {c : Char} (h : c ∈ natStr n) :
    c.isDigit = true := by
  unfold natStr at h
  split at h
  · rw [List.mem_singleton.1 h]; decide
  · exact mem_natStrGo_isDigit h

theorem natStr_ne_nil (n : Nat) : natStr n ≠ [] := by
  unfold natStr
  split
  · simp
  · rename_i h
    obtain ⟨m, rfl⟩ := Nat.exists_eq_succ_of_ne_zero h
    simp [natStrGo, h]

theorem digitsVal_append_digit (a : PyStr) {c : Char} (hc : c ≠ '_') :
    digitsVal (a ++ [c]) = 10 * digitsVal a + (c.toNat - 48) := by
  simp [digitsVal, List.foldl_append, hc]

theorem digitsVal_natStrGo {fuel n : Nat} (h : n ≤ fuel) :
    digitsVal (natStrGo fuel n) = n := by
  induction fuel generalizing n with
  | zero => simp_all [natStrGo, digitsVal]
  | succ fuel ih =>
    simp only [natStrGo]
    split
    · simp_all [digitsVal]
    · rename_i hn
      have hd : n % 10 < 10 := Nat.mod_lt n (by norm_num)
      rw [digitsVal_append_digit _ (isDigit_ne_sep (digitChar_isDigit hd)).2.2.2.1,
        digitChar_toNat hd,
        ih (by omega)]
      omega

theorem digitsVal_natStr (n : Nat) : digitsVal (natStr n) = n := by
  unfold natStr
  split
  · simp_all [digitsVal]
  · exact digitsVal_natStrGo (Nat.le_refl n)

theorem pyStrip_of_all_digits {l : PyStr} (h : ∀ c ∈ l, c.isDigit = true) :
    pyStrip l = l := by
  have h1 : ∀ (m : PyStr), (∀ c ∈ m, c.isDigit = true) →
      m.dropWhile Char.isWhitespace = m := by
    intro m hm
    cases m with
    | nil => rfl
    | cons c cs =>
      rw [List.dropWhile_cons,
        if_neg (by simp [isDigit_not_whitespace (hm c (List.mem_cons_self c cs))])]
  rw [pyStrip, h1 l h, h1 l.reverse (fun c hc => h c (List.mem_reverse.1 hc)),
    List.reverse_reverse]

theorem pyDigitTail_of_digits {l : PyStr} (h : ∀ c ∈ l, c.isDigit = true) :
    pyDigitTail l = true := by
  induction l with
  | nil => rfl
  | cons c cs ih =>
    have hc := h c (List.mem_cons_self c cs)
    rw [pyDigitTail,
      if_neg (by simpa using (isDigit_ne_sep hc).2.2.2.1), hc,
      ih (fun d hd => h d (List.mem_cons_of_mem c hd))]
    rfl

theorem pyDigitRun_of_digits {l : PyStr} (h0 : l ≠ [])
    (h : ∀ c ∈ l, c.isDigit = true) : pyDigitRun l = true := by
  cases l with
  | nil => exact absurd rfl h0
  | cons c cs =>
    rw [pyDigitRun, h c (List.mem_cons_self c cs),
      pyDigitTail_of_digits (fun d hd => h d (List.mem_cons_of_mem c hd))]
    rfl

theorem pyInt?_natStr (n : Nat) : pyInt? (natStr n) = some (n : Int) := by
  have hd : ∀ c ∈ natStr n, c.isDigit = true := fun c hc => mem_natStr_isDigit hc
  rw [pyInt?, pyStrip_of_all_digits hd]
  rcases h : natStr n with _ | ⟨c, rest⟩
  · exact absurd h (natStr_ne_nil n)
  · have hc : c.isDigit = true := hd c (h ▸ List.mem_cons_self c rest)
    have hrest : ∀ d ∈ rest, d.isDigit = true :=
      fun d hdm => hd d (h ▸ List.mem_cons_of_mem c hdm)
    rw [pyIntCore,
      if_neg (by simpa using (isDigit_ne_sep hc).2.2.2.2.1),
      if_neg (by simpa using (isDigit_ne_sep hc).2.2.2.2.2),
      if_pos (pyDigitRun_of_digits (by simp) (by
        intro d hdm
        rcases List.mem_cons.1 hdm with hdm | hdm
        · exact hdm ▸ hc
        · exact hrest d hdm))]
    have hv := digitsVal_natStr n
    rw [h] at hv
    rw [hv]

theorem natStr_no_sep {n : Nat} {c : Char} (hc : c ∈ natStr n) :
    c ≠ '.' ∧ c ≠ '"' ∧ c ≠ '\'' := by
  have h := isDigit_ne_sep (mem_natStr_isDigit hc)
  exact ⟨h.1, h.2.1, h.2.2.1⟩

/-! ## Version editor (`mypythontools/utils.py`, `set_version` / `get_version`)

A file is a list of lines (`readlines` keeps the newline characters inside
each line; nothing below depends on that).  The possible Python exceptions
of the two functions are modelled by `Verr`:

* `notFound`  – the `ValueError` raised by the `for … else` clause when no
  line starts with `__version__`;
* `indexError` – an `IndexError` from `delimited[1]` / `version_list[2]`
  when the matched line has no quote character or fewer than three
  dot-separated payload segments;
* `parseError` – the `ValueError` raised by `int(...)` on a non-numeric
  patch segment.

In the source, the whole file is read before the loop runs and the file is
re-opened for writing only after the loop finishes; hence an exception
(any `Verr`) leaves the file untouched, which the embedding models by
returning `Except.error` instead of a new line list. -/

/-- Errors of the version editor (see the module comment above). -/
inductive Verr where
  | notFound
  | indexError
  | parseError
deriving DecidableEq, Repr

/-- The version-declaration marker `"__version__"` used by
`j.startswith("__version__")`. -/
def versionDecl : PyStr := "__version__".data

/-- `'"' if '"' in j else "'"` — the quote character of a line, double
quote preferred when both appear. -/
def quoteOf (j : PyStr) : Char := if '"' ∈ j then '"' else '\''

/-- One iteration body of the `set_version` loop, applied to the first
line starting with `__version__` (lines 257–268 of `utils.py`). -/
def edit_version_line (version : PyStr) (j : PyStr) : Except Verr PyStr :=
  let delimiter := quoteOf j
  let delimited := pySplit delimiter j
  if version = "increment".data then
    match delimited.get? 1 with
    | none => .error .indexError
    | some payload =>
      match (pySplit '.' payload).get? 2 with
      | none => .error .indexError
      | some seg =>
        match pyInt? seg with
        | none => .error .parseError
        | some z =>
          .ok (pyJoin delimiter
            (delimited.set 1
              (pyJoin '.' ((pySplit '.' payload).set 2 (pyStrOfInt (z + 1))))))
  else
    if delimited.length ≤ 1 then .error .indexError
    else .ok (pyJoin delimiter (delimited.set 1 version))

/-- `set_version` (lines 250–278 of `utils.py`): scan the lines for the
first one starting with `__version__`, rewrite it via
`edit_version_line`, keep every other line as read.  The `for … else`
clause raising `ValueError` is the `notFound` error. -/
def set_version (version : PyStr) : List PyStr → Except Verr (List PyStr)
  | [] => .error .notFound
  | j :: rest =>
    if startswith j versionDecl then
      (edit_version_line version j).map (· :: rest)
    else
      (set_version version rest).map (j :: ·)

/-- `get_version` (lines 295–309 of `utils.py`): return the payload
between the first two quote characters of the first line starting with
`__version__` (`line.split(delim)[1]`). -/
def get_version : List PyStr → Except Verr PyStr
  | [] => .error .notFound
  | line :: rest =>
    if startswith line versionDecl then
      match (pySplit (quoteOf line) line).get? 1 with
      | none => .error .indexError
      | some payload => .ok payload
    else get_version rest

/-! ### Structural lemmas about `set_version` / `get_version` -/

theorem set_version_append (version : PyStr) {pre : List PyStr}
    (hpre : ∀ l ∈ pre, startswith l versionDecl = false)
    (j : PyStr) (hj : startswith j versionDecl = true) (post : List PyStr) :
    set_version version (pre ++ j :: post) =
      (edit_version_line version j).map (fun l => pre ++ l :: post) := by
  induction pre with
  | nil =>
    rw [List.nil_append, set_version, if_pos hj]
    cases edit_version_line version j <;> rfl
  | cons a pre ih =>
    rw [List.cons_append, set_version,
      if_neg (by simp [hpre a (List.mem_cons_self a pre)]),
      ih (fun l hl => hpre l (List.mem_cons_of_mem a hl))]
    cases edit_version_line version j <;> rfl

theorem get_version_append {pre : List PyStr}
    (hpre : ∀ l ∈ pre, startswith l versionDecl = false)
    (j : PyStr) (hj : startswith j versionDecl = true) (post : List PyStr) :
    get_version (pre ++ j :: post) =
      match (pySplit (quoteOf j) j).get? 1 with
      | none => .error .indexError
      | some payload => .ok payload := by
  induction pre with
  | nil => rw [List.nil_append, get_version, if_pos hj]
  | cons a pre ih =>
    rw [List.cons_append, get_version,
      if_neg (by simp [hpre a (List.mem_cons_self a pre)]),
      ih (fun l hl => hpre l (List.mem_cons_of_mem a hl))]

theorem set_version_not_found (version : PyStr) {lines : List PyStr}
    (h : ∀ l ∈ lines, startswith l versionDecl = false) :
    set_version version lines = .error .notFound := by
  induction lines with
  | nil => rfl
  | cons j rest ih =>
    rw [set_version, if_neg (by simp [h j (List.mem_cons_self j rest)]),
      ih (fun l hl => h l (List.mem_cons_of_mem j hl))]
    rfl

/-- A successful `get_version` splits the file at the first matching
line. -/
theorem get_version_ok_elim {lines : List PyStr} {payload : PyStr}
    (h : get_version lines = .ok payload) :
    ∃ pre j post, lines = pre ++ j :: post ∧
      (∀ l ∈ pre, startswith l versionDecl = false) ∧
      startswith j versionDecl = true ∧
      (pySplit (quoteOf j) j).get? 1 = some payload := by
  induction lines with
  | nil => simp [get_version] at h
  | cons line rest ih =>
    rw [get_version] at h
    split at h
    · rename_i hline
      refine ⟨[], line, rest, by simp, by simp, hline, ?_⟩
      split at h
      · cases h
      · rename_i payload' hp
        cases h
        exact hp
    · rename_i hline
      obtain ⟨pre, j, post, heq, hpre, hj, hp⟩ := ih h
      refine ⟨line :: pre, j, post, by rw [heq, List.cons_append], ?_, hj, hp⟩
      intro l hl
      rcases List.mem_cons.1 hl with hl | hl
      · subst hl
        simpa using hline
      · exact hpre l hl

theorem get?_one_elim {α : Type} {l : List α} {x : α} (h : l.get? 1 = some x) :
    ∃ a t, l = a :: x :: t := by
  cases l with
  | nil => simp at h
  | cons a l' =>
    cases l' with
    | nil => simp at h
    | cons b t =>
      simp only [List.get?_cons_succ, List.get?_cons_zero, Option.some_inj] at h
      exact ⟨a, t, by rw [h]⟩

theorem quoteOf_cases (j : PyStr) : quoteOf j = '"' ∨ quoteOf j = '\'' := by
  unfold quoteOf
  split
  · exact Or.inl rfl
  · exact Or.inr rfl

theorem quoteOf_not_in_decl (j : PyStr) : quoteOf j ∉ versionDecl := by
  rcases quoteOf_cases j with h | h <;> rw [h] <;> decide

/-- Rebuilding the matched line with a new payload `w`: if `w` avoids the
line's quote character, and avoids the double quote unless that *is* the
line's quote, then the rebuilt line still starts with `__version__`, keeps
the same quote character, and splits back into the same pieces with `w`
in payload position. -/
theorem newline_facts {j p0 p1 w : PyStr} {rest : List PyStr}
    (hj : startswith j versionDecl = true)
    (hsplit : pySplit (quoteOf j) j = p0 :: p1 :: rest)
    (hwq : quoteOf j ∉ w) (hwd : '"' ∈ w → quoteOf j = '"') :
    startswith (pyJoin (quoteOf j) (p0 :: w :: rest)) versionDecl = true ∧
      quoteOf (pyJoin (quoteOf j) (p0 :: w :: rest)) = quoteOf j ∧
      pySplit (quoteOf j) (pyJoin (quoteOf j) (p0 :: w :: rest)) =
        p0 :: w :: rest := by
  have hj_eq : pyJoin (quoteOf j) (p0 :: p1 :: rest) = j := by
    rw [← hsplit, pyJoin_pySplit]
  have hpieces : ∀ p ∈ p0 :: p1 :: rest, quoteOf j ∉ p := by
    intro p hp
    exact not_mem_of_mem_pySplit (hsplit ▸ hp)
  have hnewpieces : ∀ p ∈ p0 :: w :: rest, quoteOf j ∉ p := by
    intro p hp
    rcases List.mem_cons.1 hp with hp | hp
    · exact hp ▸ hpieces p0 (List.mem_cons_self _ _)
    · rcases List.mem_cons.1 hp with hp | hp
      · exact hp ▸ hwq
      · exact hpieces p (List.mem_cons_of_mem _ (List.mem_cons_of_mem _ hp))
  have hstart : startswith (pyJoin (quoteOf j) (p0 :: w :: rest)) versionDecl = true := by
    have h1 : startswith (p0 ++ quoteOf j :: pyJoin (quoteOf j) (p1 :: rest))
        versionDecl = true := by
      rw [← pyJoin_cons_cons, hj_eq]
      exact hj
    have h0 : startswith p0 versionDecl = true :=
      startswith_of_append_sep (quoteOf_not_in_decl j) h1
    rw [pyJoin_cons_cons]
    exact startswith_append _ h0
  refine ⟨hstart, ?_, pySplit_pyJoin (by simp) hnewpieces⟩
  rcases quoteOf_cases j with hq | hq
  · rw [quoteOf, if_pos]
    · exact hq.symm
    · rw [hq]
      exact hq ▸ sep_mem_pyJoin rest
  · have hdq : '"' ∉ j := by
      intro hd
      rw [quoteOf, if_pos hd] at hq
      cases hq
    have : '"' ∉ pyJoin (quoteOf j) (p0 :: w :: rest) := by
      intro hmem
      rcases mem_pyJoin_cases hmem with h | ⟨p, hp, hcp⟩
      · rw [hq] at h
        cases h
      · rcases List.mem_cons.1 hp with hp | hp
        · exact hdq (hj_eq ▸
            mem_pyJoin_of_mem (List.mem_cons_self p0 _) (hp ▸ hcp))
        · rcases List.mem_cons.1 hp with hp | hp
          · rw [hq] at hwd
            cases hwd (hp ▸ hcp)
          · exact hdq (hj_eq ▸ mem_pyJoin_of_mem
              (List.mem_cons_of_mem _ (List.mem_cons_of_mem _ hp)) hcp)
    rw [quoteOf, if_neg this, hq]

theorem edit_version_line_explicit {version j p0 p1 : PyStr} {rest : List PyStr}
    (hv : version ≠ "increment".data)
    (hsplit : pySplit (quoteOf j) j = p0 :: p1 :: rest) :
    edit_version_line version j =
      .ok (pyJoin (quoteOf j) (p0 :: version :: rest)) := by
  rw [edit_version_line]
  simp only [hsplit, if_neg hv]
  rw [if_neg (by simp)]
  rfl

theorem edit_version_line_increment {j p0 p1 x y z : PyStr} {rest : List PyStr}
    {m : Int}
    (hsplit : pySplit (quoteOf j) j = p0 :: p1 :: rest)
    (hpayload : pySplit '.' p1 = [x, y, z])
    (hz : pyInt? z = some m) :
    edit_version_line "increment".data j =
      .ok (pyJoin (quoteOf j)
        (p0 :: pyJoin '.' [x, y, pyStrOfInt (m + 1)] :: rest)) := by
  rw [edit_version_line]
  simp only [hsplit, if_pos rfl, List.get?_cons_succ, List.get?_cons_zero,
    hpayload, hz]
  rfl

theorem edit_version_line_increment_err {j p0 p1 x y z : PyStr} {rest : List PyStr}
    (hsplit : pySplit (quoteOf j) j = p0 :: p1 :: rest)
    (hpayload : pySplit '.' p1 = [x, y, z])
    (hz : pyInt? z = none) :
    edit_version_line "increment".data j = .error .parseError := by
  rw [edit_version_line]
  simp only [hsplit, if_pos rfl, List.get?_cons_succ, List.get?_cons_zero,
    hpayload, hz]
  rfl

/-! ### Canonical `"a.b.c"` version payloads -/

/-- The payload text `"a.b.c"` of a version with three numeric
components. -/
def verStr (a b c : Nat) : PyStr :=
  natStr a ++ ('.' :: (natStr b ++ ('.' :: natStr c)))

theorem pySplit_verStr (a b c : Nat) :
    pySplit '.' (verStr a b c) = [natStr a, natStr b, natStr c] := by
  rw [verStr,
    pySplit_append_sep _ (fun h => (natStr_no_sep h).1 rfl),
    pySplit_append_sep _ (fun h => (natStr_no_sep h).1 rfl),
    pySplit_of_not_mem (fun h => (natStr_no_sep h).1 rfl)]

theorem pyJoin_verStr (a b c : Nat) :
    pyJoin '.' [natStr a, natStr b, natStr c] = verStr a b c := rfl

theorem mem_verStr_elim {a b c : Nat} {ch : Char} (h : ch ∈ verStr a b c) :
    ch = '.' ∨ ch.isDigit = true := by
  rw [verStr] at h
  rcases List.mem_append.1 h with h | h
  · exact Or.inr (mem_natStr_isDigit h)
  · rcases List.mem_cons.1 h with h | h
    · exact Or.inl h
    · rcases List.mem_append.1 h with h | h
      · exact Or.inr (mem_natStr_isDigit h)
      · rcases List.mem_cons.1 h with h | h
        · exact Or.inl h
        · exact Or.inr (mem_natStr_isDigit h)

theorem quote_not_mem_verStr {a b c : Nat} {q : Char}
    (hq : q = '"' ∨ q = '\'') : q ∉ verStr a b c := by
  intro h
  rcases mem_verStr_elim h with h' | h' <;> rcases hq with hq | hq <;>
    subst hq
  · cases h'
  · cases h'
  · exact ((isDigit_ne_sep h').2.1 rfl).elim
  · exact ((isDigit_ne_sep h').2.2.1 rfl).elim

theorem pyStrOfInt_natCast (m : Nat) : pyStrOfInt (m : Int) = natStr m := by
  rw [pyStrOfInt, if_neg (by simp), Int.toNat_natCast]

/-- One `set_version("increment")` call on a file whose version payload is
the canonical `"a.b.n"`: it succeeds and the stored payload becomes
`"a.b.(n+1)"`. -/
theorem increment_step {lines : List PyStr} {a b n : Nat}
    (hget : get_version lines = .ok (verStr a b n)) :
    ∃ lines', set_version "increment".data lines = .ok lines' ∧
      get_version lines' = .ok (verStr a b (n + 1)) := by
  obtain ⟨pre, j, post, rfl, hpre, hj, hp⟩ := get_version_ok_elim hget
  obtain ⟨p0, rest, hsplit⟩ := get?_one_elim hp
  have hedit := edit_version_line_increment hsplit (pySplit_verStr a b n)
    (pyInt?_natStr n)
  have hcast : pyStrOfInt ((n : Int) + 1) = natStr (n + 1) := by
    rw [show ((n : Int) + 1) = ((n + 1 : Nat) : Int) by push_cast; ring,
      pyStrOfInt_natCast]
  rw [hcast, pyJoin_verStr] at hedit
  have hwq : quoteOf j ∉ verStr a b (n + 1) :=
    quote_not_mem_verStr (quoteOf_cases j)
  have hwd : '"' ∈ verStr a b (n + 1) → quoteOf j = '"' := fun h =>
    absurd h (quote_not_mem_verStr (Or.inl rfl))
  obtain ⟨hstart', hquote', hsplit'⟩ := newline_facts hj hsplit hwq hwd
  refine ⟨pre ++ pyJoin (quoteOf j) (p0 :: verStr a b (n + 1) :: rest) :: post,
    ?_, ?_⟩
  · rw [set_version_append _ hpre j hj post, hedit]
    rfl
  · rw [get_version_append hpre _ hstart' post]
    simp only [hquote', hsplit', List.get?_cons_succ, List.get?_cons_zero]

theorem except_map_ok {ε α β : Type} {e : Except ε α} {f : α → β} {y : β}
    (h : e.map f = .ok y) : ∃ x, e = .ok x ∧ y = f x := by
  cases e with
  | error err => simp [Except.map] at h
  | ok x =>
    refine ⟨x, rfl, ?_⟩
    simpa [Except.map] using h.symm

/-- Any successful edit of the matched line reassembles it by splitting
on its quote character, replacing the payload slot, and joining with the
same quote character. -/
theorem edit_version_line_shape {version j j' : PyStr}
    (h : edit_version_line version j = .ok j') :
    ∃ w, j' = pyJoin (quoteOf j) ((pySplit (quoteOf j) j).set 1 w) := by
  rw [edit_version_line] at h
  split at h
  · split at h
    · cases h
    · split at h
      · cases h
      · split at h
        · cases h
        · cases h
          exact ⟨_, rfl⟩
  · split at h
    · cases h
    · cases h
      exact ⟨_, rfl⟩

/-- The quote character of the first version line of a file (the code's
`'"' if '"' in j else "'"` rule applied to the matched line). -/
def file_quote : List PyStr → Option Char
  | [] => none
  | line :: rest =>
    if startswith line versionDecl then some (quoteOf line) else file_quote rest

theorem file_quote_append {pre : List PyStr}
    (hpre : ∀ l ∈ pre, startswith l versionDecl = false)
    (j : PyStr) (hj : startswith j versionDecl = true) (post : List PyStr) :
    file_quote (pre ++ j :: post) = some (quoteOf j) := by
  induction pre with
  | nil => rw [List.nil_append, file_quote, if_pos hj]
  | cons a pre ih =>
    rw [List.cons_append, file_quote,
      if_neg (by simp [hpre a (List.mem_cons_self a pre)]),
      ih (fun l hl => hpre l (List.mem_cons_of_mem a hl))]

/-! ## Claim theorems for the version editor -/

/-- **C1**: on an init file whose stored version payload is the canonical
`"a.b.n"`, `set_version("increment")` succeeds and the stored payload
becomes `"a.b.(n+1)"`; doing it twice yields `"a.b.(n+2)"` with the first
two components unchanged.  If the third dot-separated payload segment is
non-numeric, the call fails with the numeric-parse error. -/
theorem C1_increment_arithmetic :
    (∀ (lines : List PyStr) (a b n : Nat),
      get_version lines = .ok (verStr a b n) →
      ∃ lines₁ lines₂,
        set_version "increment".data lines = .ok lines₁ ∧
        get_version lines₁ = .ok (verStr a b (n + 1)) ∧
        set_version "increment".data lines₁ = .ok lines₂ ∧
        get_version lines₂ = .ok (verStr a b (n + 2))) ∧
    (∀ (lines : List PyStr) (x y z : PyStr),
      '.' ∉ x → '.' ∉ y → '.' ∉ z → pyInt? z = none →
      get_version lines = .ok (x ++ ('.' :: (y ++ ('.' :: z)))) →
      set_version "increment".data lines = .error .parseError) := by
  constructor
  · intro lines a b n hget
    obtain ⟨l1, h1, hget1⟩ := increment_step hget
    obtain ⟨l2, h2, hget2⟩ := increment_step hget1
    exact ⟨l1, l2, h1, hget1, h2, hget2⟩
  · intro lines x y z hx hy hz hparse hget
    obtain ⟨pre, j, post, rfl, hpre, hj, hp⟩ := get_version_ok_elim hget
    obtain ⟨p0, rest, hsplit⟩ := get?_one_elim hp
    have hpayload : pySplit '.' (x ++ ('.' :: (y ++ ('.' :: z)))) = [x, y, z] := by
      rw [pySplit_append_sep _ hx, pySplit_append_sep _ hy,
        pySplit_of_not_mem hz]
    rw [set_version_append _ hpre j hj post,
      edit_version_line_increment_err hsplit hpayload hparse]
    rfl

/-- Witness for C1 at `__version__ = "1.2.3"` (both increments) and at a
non-numeric patch segment `__version__ = "1.2.x"`. -/
theorem C1_increment_arithmetic_witness :
    (∃ lines₁ lines₂,
      set_version "increment".data ["__version__ = \"1.2.3\"\n".data] =
        .ok lines₁ ∧
      get_version lines₁ = .ok (verStr 1 2 (3 + 1)) ∧
      set_version "increment".data lines₁ = .ok lines₂ ∧
      get_version lines₂ = .ok (verStr 1 2 (3 + 2))) ∧
    set_version "increment".data ["__version__ = \"1.2.x\"\n".data] =
      .error .parseError :=
  ⟨C1_increment_arithmetic.1 ["__version__ = \"1.2.3\"\n".data] 1 2 3 rfl,
   C1_increment_arithmetic.2 ["__version__ = \"1.2.x\"\n".data]
     ['1'] ['2'] ['x'] (by decide) (by decide) (by decide) rfl rfl⟩

/-- **C2**: whenever `set_version` (any new value) writes a file back,
every line other than the first `__version__` line is kept exactly as
read, and the matched line is reassembled by joining its pieces with its
original quote character (`quoteOf`: the double quote when the line
contains one, the single quote otherwise). -/
theorem C2_frame_and_quote :
    ∀ (version : PyStr) (lines lines' : List PyStr),
      set_version version lines = .ok lines' →
      ∃ pre j post w, lines = pre ++ j :: post ∧
        (∀ l ∈ pre, startswith l versionDecl = false) ∧
        startswith j versionDecl = true ∧
        lines' = pre ++
          pyJoin (quoteOf j) ((pySplit (quoteOf j) j).set 1 w) :: post := by
  intro version lines
  induction lines with
  | nil => intro lines' h; cases h
  | cons j rest ih =>
    intro lines' h
    rw [set_version] at h
    split at h
    · rename_i hj
      obtain ⟨j', hedit, rfl⟩ := except_map_ok h
      obtain ⟨w, hw⟩ := edit_version_line_shape hedit
      exact ⟨[], j, rest, w, rfl, by simp, hj, by rw [hw]; rfl⟩
    · rename_i hj
      obtain ⟨rest', hrest, rfl⟩ := except_map_ok h
      obtain ⟨pre, j0, post, w, rfl, hpre, hj0, hshape⟩ := ih rest' hrest
      refine ⟨j :: pre, j0, post, w, rfl, ?_, hj0, by rw [hshape]; rfl⟩
      intro l hl
      rcases List.mem_cons.1 hl with hl | hl
      · subst hl; simpa using hj
      · exact hpre l hl

/-- Witness for C2: replacing the version in a two-line single-quoted
file. -/
theorem C2_frame_and_quote_witness :
    ∃ pre j post w,
      ["# header\n".data, "__version__ = \'1.2.3\'\n".data] = pre ++ j :: post ∧
      (∀ l ∈ pre, startswith l versionDecl = false) ∧
      startswith j versionDecl = true ∧
      ["# header\n".data, "__version__ = \'9.9.9\'\n".data] = pre ++
        pyJoin (quoteOf j) ((pySplit (quoteOf j) j).set 1 w) :: post :=
  C2_frame_and_quote "9.9.9".data
    ["# header\n".data, "__version__ = \'1.2.3\'\n".data]
    ["# header\n".data, "__version__ = \'9.9.9\'\n".data] rfl

/-- **C5 counterexample**: the claim keys the search on the *trimmed*
line text.  On a file whose only line is `"  __version__ = '1.2.3'\n"`
(leading spaces), the trimmed text does start with `__version__`, so the
claim requires that line to be edited; the code instead raises the
declaration-not-found error, because `j.startswith("__version__")` is
applied to the untrimmed line. -/
theorem C5_trimmed_cex :
    startswith (pyStrip "  __version__ = \'1.2.3\'\n".data) versionDecl = true ∧
    set_version "increment".data ["  __version__ = \'1.2.3\'\n".data] =
      .error .notFound :=
  ⟨rfl, rfl⟩

/-- **C5 amended**: when no line of the file starts with `__version__`
(no trimming), `set_version` fails with the declaration-not-found error —
and since the whole file is read before any write, the file is untouched
(modelled by returning `Except.error` and no line list); when a line
starting with `__version__` exists, the first such line is the one that
is edited and all other lines are kept as read. -/
theorem C5_not_found_and_first_line :
    (∀ (version : PyStr) (lines : List PyStr),
      (∀ l ∈ lines, startswith l versionDecl = false) →
      set_version version lines = .error .notFound) ∧
    (∀ (version : PyStr) (pre : List PyStr),
      (∀ l ∈ pre, startswith l versionDecl = false) →
      ∀ (j : PyStr), startswith j versionDecl = true →
      ∀ (post : List PyStr),
      set_version version (pre ++ j :: post) =
        (edit_version_line version j).map (fun l => pre ++ l :: post)) :=
  ⟨fun version _ h => set_version_not_found version h,
   fun version _ hpre j hj post => set_version_append version hpre j hj post⟩

/-- Witness for the amended C5: a file with no version line errors, and a
file whose second line is the first `__version__` line is edited there. -/
theorem C5_not_found_and_first_line_witness :
    set_version "increment".data ["import os\n".data, "x = 1\n".data] =
      .error .notFound ∧
    set_version "increment".data
        ["# header\n".data, "__version__ = \'0.0.1\'\n".data] =
      (edit_version_line "increment".data "__version__ = \'0.0.1\'\n".data).map
        (fun l => ["# header\n".data] ++ l :: []) :=
  ⟨C5_not_found_and_first_line.1 "increment".data
      ["import os\n".data, "x = 1\n".data] (by decide),
   C5_not_found_and_first_line.2 "increment".data ["# header\n".data]
      (by decide) "__version__ = \'0.0.1\'\n".data rfl []⟩

/-- **C10 counterexample**: the claim only requires the new value to
avoid the line's own quote character.  Take the single-quoted line
`__version__ = '1.2.3'` and the new value `a"b` (which contains no single
quote).  `set_version` succeeds, but the written line now contains a
double quote, so `get_version` prefers the double quote as delimiter and
returns `b'\n`, not `a"b`. -/
theorem C10_roundtrip_cex :
    "a\"b".data ≠ "increment".data ∧
    '\'' ∉ "a\"b".data ∧
    file_quote ["__version__ = \'1.2.3\'\n".data] = some '\'' ∧
    set_version "a\"b".data ["__version__ = \'1.2.3\'\n".data] =
      .ok ["__version__ = \'a\"b\'\n".data] ∧
    get_version ["__version__ = \'a\"b\'\n".data] = .ok "b\'\n".data ∧
    "b\'\n".data ≠ "a\"b".data :=
  ⟨by decide, by decide, rfl, rfl, rfl, by decide⟩

/-- **C10 amended**: for every init file with a version line and every
explicit new value `v` other than `"increment"` that contains neither the
line's quote character nor the double quote, `set_version v` followed by
`get_version` returns exactly `v` (stored verbatim, no format
validation). -/
theorem C10_set_get_roundtrip :
    ∀ (v : PyStr) (lines : List PyStr) (payload : PyStr) (q : Char),
      v ≠ "increment".data →
      get_version lines = .ok payload →
      file_quote lines = some q →
      q ∉ v → '"' ∉ v →
      ∃ lines', set_version v lines = .ok lines' ∧
        get_version lines' = .ok v := by
  intro v lines payload q hv hget hfq hqv hdv
  obtain ⟨pre, j, post, rfl, hpre, hj, hp⟩ := get_version_ok_elim hget
  obtain ⟨p0, rest, hsplit⟩ := get?_one_elim hp
  have hq : q = quoteOf j := by
    rw [file_quote_append hpre j hj post] at hfq
    exact (Option.some_inj.1 hfq).symm
  subst hq
  obtain ⟨hstart', hquote', hsplit'⟩ :=
    newline_facts hj hsplit hqv (fun h => absurd h hdv)
  refine ⟨pre ++ pyJoin (quoteOf j) (p0 :: v :: rest) :: post, ?_, ?_⟩
  · rw [set_version_append _ hpre j hj post,
      edit_version_line_explicit hv hsplit]
    rfl
  · rw [get_version_append hpre _ hstart' post]
    simp only [hquote', hsplit', List.get?_cons_succ, List.get?_cons_zero]

/-- Witness for the amended C10 at a double-quoted file and the value
`2.0.0rc1`. -/
theorem C10_set_get_roundtrip_witness :
    ∃ lines', set_version "2.0.0rc1".data
        ["__version__ = \"1.2.3\"\n".data] = .ok lines' ∧
      get_version lines' = .ok "2.0.0rc1".data :=
  C10_set_get_roundtrip "2.0.0rc1".data ["__version__ = \"1.2.3\"\n".data]
    "1.2.3".data '"' (by decide) rfl rfl (by decide) (by decide)

/-! ## Path resolver (`mypythontools/paths.py`)

A directory tree is a finite labelled tree; entries of a directory are an
ordered list (filesystem listing order, the order `Path.glob` yields
matches level by level).  `find_path` searches with the glob pattern
`'*/' * lev + file` for `lev = 0 .. levels-1`; a candidate is rejected if
any component of its full path (the search root's own components included,
as in `i.parts`) equals one of the exclusion strings. -/

/-- A filesystem node: a plain file or a directory with named entries. -/
inductive FSNode where
  | file : FSNode
  | dir : List (String × FSNode) → FSNode

/-- Matches of the glob pattern `'*/' * lev + fname` under a node, in
listing order: paths of exactly `lev` directory components followed by an
entry named `fname` (of any kind, as with `Path.glob`). -/
def glob (fname : String) : Nat → FSNode → List (List String)
  | _, .file => []
  | 0, .dir es => es.filterMap (fun e => if e.1 = fname then some [e.1] else none)
  | lev + 1, .dir es => es.flatMap (fun e => (glob fname lev e.2).map (e.1 :: ·))

/-- The `isthatfile` exclusion filter of `find_path`: a candidate is kept
iff no exclusion string occurs among its path components. -/
def partsOk (exclude : List String) (parts : List String) : Bool :=
  exclude.all (fun j => !(parts.contains j))

/-- One depth level of the search: the first glob match at that level
that survives the exclusion filter, as a full path (root components ++
relative components). -/
def findLevel (fname : String) (rootParts : List String) (tree : FSNode)
    (exclude : List String) (lev : Nat) : Option (List String) :=
  ((glob fname lev tree).map (rootParts ++ ·)).find? (partsOk exclude)

/-- `find_path` (lines 50–81 of `paths.py`): try depth levels
`0 .. levels-1` in order and return the first accepted match; when no
level yields one, raise `FileNotFoundError` (the `.error` case). -/
def find_path (fname : String) (rootParts : List String) (tree : FSNode)
    (exclude : List String := ["node_modules", "build", "dist"])
    (levels : Nat := 5) : Except String (List String) :=
  match (List.range levels).findSome? (findLevel fname rootParts tree exclude) with
  | some p => .ok p
  | none => .error ("File `" ++ fname ++ "` not found")

/-- The demonstration tree of C3: an excluded `node_modules` directory
holds a shallow decoy `app.py` at depth 1, and the only other occurrence
is at depth 3 under `a/b/c`. -/
def demoTree : FSNode :=
  .dir [("node_modules", .dir [("app.py", .file)]),
        ("a", .dir [("b", .dir [("c", .dir [("app.py", .file)])])])]

/-- **C3**: every path returned by `find_path` is free of excluded
component names; and on the demonstration tree — whose only occurrence of
`app.py` outside excluded directories is at depth 3, while the excluded
`node_modules` directory holds a shallower copy — the search returns the
depth-3 match, never the excluded one. -/
theorem C3_exclusion_and_depth :
    (∀ (fname : String) (rootParts : List String) (tree : FSNode)
        (exclude : List String) (levels : Nat) (p : List String),
      find_path fname rootParts tree exclude levels = .ok p →
      ∀ j ∈ exclude, j ∉ p) ∧
    find_path "app.py" ["proj"] demoTree ["node_modules", "build", "dist"] 5 =
      .ok ["proj", "a", "b", "c", "app.py"] := by
  constructor
  · intro fname rootParts tree exclude levels p h j hj
    rw [find_path] at h
    split at h
    · rename_i q hq
      cases h
      obtain ⟨lev, hlev, hfind⟩ := List.exists_of_findSome?_eq_some hq
      have hsat := List.find?_some hfind
      rw [partsOk] at hsat
      have hc := List.all_eq_true.1 hsat j hj
      rw [Bool.not_eq_true'] at hc
      intro hmem
      have := List.elem_eq_true_of_mem hmem
      rw [List.contains] at hc
      rw [this] at hc
      cases hc
    · cases h
  · rfl

/-- Witness for C3: the concrete search of the second conjunct never
returns a path through `node_modules`. -/
theorem C3_exclusion_and_depth_witness :
    ("node_modules" : String) ∉ ["proj", "a", "b", "c", "app.py"] :=
  C3_exclusion_and_depth.1 "app.py" ["proj"] demoTree
    ["node_modules", "build", "dist"] 5 ["proj", "a", "b", "c", "app.py"]
    C3_exclusion_and_depth.2 "node_modules" (by decide)

/-- **C4**: when no depth level `0 .. levels-1` yields a match surviving
the exclusion filter, `find_path` raises the `FileNotFoundError` (the
`.error` case carrying the not-found message) rather than returning an
empty or null result. -/
theorem C4_not_found :
    ∀ (fname : String) (rootParts : List String) (tree : FSNode)
      (exclude : List String) (levels : Nat),
      (∀ lev < levels, findLevel fname rootParts tree exclude lev = none) →
      find_path fname rootParts tree exclude levels =
        .error ("File `" ++ fname ++ "` not found") := by
  intro fname rootParts tree exclude levels h
  rw [find_path]
  rw [List.findSome?_eq_none_iff.mpr
    (fun lev hlev => h lev (List.mem_range.1 hlev))]

/-- Witness for C4: searching the demonstration tree for a missing file.
-/
theorem C4_not_found_witness :
    find_path "missing.py" ["root"] demoTree ["node_modules", "build", "dist"]
        3 = .error ("File `" ++ "missing.py" ++ "` not found") :=
  C4_not_found "missing.py" ["root"] demoTree ["node_modules", "build", "dist"]
    3 (by decide)

/-! ## Root setter (`mypythontools/paths.py`, `set_root`)

Process-wide state: the module-level `root_path` and the interpreter's
`sys.path` list.  Paths are modelled as plain strings (`Path(...).as_posix()`
is treated as the identity on already-normalised path strings, which is
all the claims quantify over). -/

/-- The process-wide path state read and written by `set_root`. -/
structure PathState where
  root_path : Option String
  sys_path : List String
deriving DecidableEq, Repr

/-- The root selected by `set_root`: the given path when truthy (a
non-empty string), the current working directory otherwise
(`Path(set_root_path) if set_root_path else Path.cwd()`). -/
def set_root_arg (arg : Option String) (cwd : String) : String :=
  match arg with
  | some p => if p = "" then cwd else p
  | none => cwd

/-- `set_root` (lines 35–47 of `paths.py`): set `root_path` to the given
path (or the current working directory), and prepend it to `sys.path`
only when it is not already present. -/
def set_root (arg : Option String) (cwd : String) (s : PathState) : PathState :=
  { root_path := some (set_root_arg arg cwd),
    sys_path :=
      if set_root_arg arg cwd ∈ s.sys_path then s.sys_path
      else set_root_arg arg cwd :: s.sys_path }

/-- **C9 counterexample**: the claim quantifies over every state; from a
`sys.path` that already holds the path twice, `set_root` (which never
removes entries) leaves both occurrences, so after one call the path
occurs twice, not at most once. -/
theorem C9_idempotent_cex :
    ¬ ((set_root (some "p") "cwd"
        { root_path := none, sys_path := ["p", "p"] }).sys_path.count "p" ≤ 1) :=
  by decide

/-- **C9 amended**: `set_root` is idempotent on the state (a second call
with the same argument changes nothing, in particular it does not prepend
again), and from any state in which the path occurs at most once, any
number of `set_root` calls with that path leaves it occurring at most
once. -/
theorem C9_set_root_idempotent :
    (∀ (p : Option String) (cwd : String) (s : PathState),
      set_root p cwd (set_root p cwd s) = set_root p cwd s) ∧
    (∀ (p : Option String) (cwd : String) (s : PathState) (n : Nat),
      s.sys_path.count (set_root_arg p cwd) ≤ 1 →
      ((set_root p cwd)^[n] s).sys_path.count (set_root_arg p cwd) ≤ 1) := by
  constructor
  · intro p cwd s
    by_cases hmem : set_root_arg p cwd ∈ s.sys_path
    · simp [set_root, hmem]
    · simp [set_root, hmem]
  · intro p cwd s n
    induction n generalizing s with
    | zero => intro h; simpa using h
    | succ n ih =>
      intro h
      rw [Function.iterate_succ_apply]
      refine ih _ ?_
      rw [set_root]
      split
      · exact h
      · rename_i hmem
        simp only [List.count_cons_self]
        rw [List.count_eq_zero.mpr hmem]

/-- Witness for the amended C9: two calls starting from an empty search
path coincide with one, and iterating three calls keeps a single
occurrence. -/
theorem C9_set_root_idempotent_witness :
    set_root (some "/proj") "cwd"
        (set_root (some "/proj") "cwd" { root_path := none, sys_path := [] }) =
      set_root (some "/proj") "cwd" { root_path := none, sys_path := [] } ∧
    ((set_root (some "/proj") "cwd")^[3]
        { root_path := none, sys_path := ["/other"] }).sys_path.count "/proj"
      ≤ 1 :=
  ⟨C9_set_root_idempotent.1 (some "/proj") "cwd"
      { root_path := none, sys_path := [] },
   C9_set_root_idempotent.2 (some "/proj") "cwd"
      { root_path := none, sys_path := ["/other"] } 3 (by decide)⟩

/-! ## Release pipeline (`mypythontools/utils.py`, `push_pipeline`)

The pipeline is a fixed sequence of optional steps; each step's external
effect is recorded as an action, and a step that raises aborts the rest
(Python exception propagation).  Environment record `PipeEnv` carries the
outcomes of the external collaborators: the pytest exit status
(`run_tests` raises exactly when it equals 1), the init-file lines edited
by `set_version`, and the success of the sphinx / git / pypi subprocess
steps (whose internals are outside this module's logic). -/

/-- The observable actions of one `push_pipeline` run, in order. -/
inductive PipeAction where
  | setPaths
  | runTests
  | setVersion
  | sphinxDocs
  | gitPush
  | deployToPypi
deriving DecidableEq, Repr

/-- Errors that abort the pipeline. -/
inductive PipeError where
  | pytestFailed
  | versionError (e : Verr)
  | sphinxError
  | gitError
  | deployError
deriving DecidableEq, Repr

/-- External state / collaborator outcomes for one pipeline run. -/
structure PipeEnv where
  pathsSet : Bool
  pytestExit : Nat
  initLines : List PyStr
  sphinxOk : Bool
  gitOk : Bool
  deployOk : Bool

/-- Sequencing with exception propagation: a failed step keeps its trace
and discards all later steps. -/
def seqSteps : List (List PipeAction × Option PipeError) →
    List PipeAction × Option PipeError
  | [] => ([], none)
  | (acts, some e) :: _ => (acts, some e)
  | (acts, none) :: rest =>
    ((acts ++ (seqSteps rest).1), (seqSteps rest).2)

/-- `run_tests` (lines 312–347 of `utils.py`): run pytest; raise
`RuntimeError("Pytest failed")` exactly when the exit status is 1. -/
def run_tests (pytestExit : Nat) : List PipeAction × Option PipeError :=
  ([.runTests], if pytestExit = 1 then some .pytestFailed else none)

/-- The `sphinx_docs` parameter: a bool, or a list of extra names to
exclude (`isinstance(sphinx_docs, list)` runs the regeneration even for
an empty list). -/
inductive SphinxArg where
  | flag (b : Bool)
  | excludeList (l : List String)

/-- Whether the doc-regeneration step runs for a given argument. -/
def sphinxRuns : SphinxArg → Bool
  | .excludeList _ => true
  | .flag b => b

/-- Python truthiness of the `version` parameter (`None` or `""` skip the
version bump). -/
def truthyStr : Option PyStr → Bool
  | none => false
  | some v => !v.isEmpty

/-- `push_pipeline` (lines 114–198 of `utils.py`): paths setup if unset,
then optional test, version-bump, docs, git and deploy steps, each
aborting the remainder on failure.  The git step's argparse override
merge only changes the commit/tag strings, never whether the step runs,
and is not modelled; `git_params` is its non-emptiness. -/
def push_pipeline (env : PipeEnv) (tests : Bool) (version : Option PyStr)
    (sphinx_docs : SphinxArg) (git_params : Bool) (deploy : Bool) :
    List PipeAction × Option PipeError :=
  seqSteps
    [(if env.pathsSet then [] else [.setPaths], none),
     (if tests then run_tests env.pytestExit else ([], none)),
     (match version with
      | some v =>
        if !v.isEmpty then
          ([.setVersion],
           match set_version v env.initLines with
           | .ok _ => none
           | .error e => some (.versionError e))
        else ([], none)
      | none => ([], none)),
     (if sphinxRuns sphinx_docs then
        ([.sphinxDocs], if env.sphinxOk then none else some .sphinxError)
      else ([], none)),
     (if git_params then
        ([.gitPush], if env.gitOk then none else some .gitError)
      else ([], none)),
     (if deploy then
        ([.deployToPypi], if env.deployOk then none else some .deployError)
      else ([], none))]

/-- **C6**: whenever the test step signals failure (pytest exit status
1), the pipeline aborts with the fatal `pytestFailed` error and the run's
action trace contains no version bump, no doc regeneration, no git push
and no deploy. -/
theorem C6_tests_abort_pipeline :
    ∀ (env : PipeEnv) (version : Option PyStr) (sphinx_docs : SphinxArg)
      (git_params deploy : Bool),
      env.pytestExit = 1 →
      (push_pipeline env true version sphinx_docs git_params deploy).2 =
          some .pytestFailed ∧
        PipeAction.setVersion ∉
          (push_pipeline env true version sphinx_docs git_params deploy).1 ∧
        PipeAction.sphinxDocs ∉
          (push_pipeline env true version sphinx_docs git_params deploy).1 ∧
        PipeAction.gitPush ∉
          (push_pipeline env true version sphinx_docs git_params deploy).1 ∧
        PipeAction.deployToPypi ∉
          (push_pipeline env true version sphinx_docs git_params deploy).1 := by
  intro env version sphinx_docs git_params deploy hexit
  have hrun : run_tests env.pytestExit = ([.runTests], some .pytestFailed) := by
    rw [run_tests, hexit, if_pos rfl]
  have hpipe : push_pipeline env true version sphinx_docs git_params deploy =
      ((if env.pathsSet then [] else [.setPaths]) ++ [.runTests],
        some .pytestFailed) := by
    unfold push_pipeline
    rw [if_pos rfl, hrun]
    cases env.pathsSet <;> rfl
  rw [hpipe]
  cases env.pathsSet
  · exact ⟨rfl, by decide, by decide, by decide, by decide⟩
  · exact ⟨rfl, by decide, by decide, by decide, by decide⟩

/-- Witness for C6: a concrete failing-tests run with every later step
enabled. -/
theorem C6_tests_abort_pipeline_witness :
    (push_pipeline
        { pathsSet := true, pytestExit := 1,
          initLines := ["__version__ = \"1.2.3\"\n".data],
          sphinxOk := true, gitOk := true, deployOk := true }
        true (some "increment".data) (.flag true) true true).2 =
        some .pytestFailed ∧
      PipeAction.setVersion ∉
        (push_pipeline
          { pathsSet := true, pytestExit := 1,
            initLines := ["__version__ = \"1.2.3\"\n".data],
            sphinxOk := true, gitOk := true, deployOk := true }
          true (some "increment".data) (.flag true) true true).1 ∧
      PipeAction.sphinxDocs ∉
        (push_pipeline
          { pathsSet := true, pytestExit := 1,
            initLines := ["__version__ = \"1.2.3\"\n".data],
            sphinxOk := true, gitOk := true, deployOk := true }
          true (some "increment".data) (.flag true) true true).1 ∧
      PipeAction.gitPush ∉
        (push_pipeline
          { pathsSet := true, pytestExit := 1,
            initLines := ["__version__ = \"1.2.3\"\n".data],
            sphinxOk := true, gitOk := true, deployOk := true }
          true (some "increment".data) (.flag true) true true).1 ∧
      PipeAction.deployToPypi ∉
        (push_pipeline
          { pathsSet := true, pytestExit := 1,
            initLines := ["__version__ = \"1.2.3\"\n".data],
            sphinxOk := true, gitOk := true, deployOk := true }
          true (some "increment".data) (.flag true) true true).1 :=
  C6_tests_abort_pipeline
    { pathsSet := true, pytestExit := 1,
      initLines := ["__version__ = \"1.2.3\"\n".data],
      sphinxOk := true, gitOk := true, deployOk := true }
    (some "increment".data) (.flag true) true true rfl

/-! ## UI bridge launcher (`mypythontools/pyvueel.py`, `run_gui`)

The whole body of `run_gui` sits inside one `try` with handlers
`except OSError:` (retry `eel.start(page, mode='edge', ...)`) and
`except Exception:` (log and swallow).  Python semantics modelled here:

* `FileNotFoundError` is a subclass of `OSError`, so the
  `raise FileNotFoundError('Web files not found, ...')` on line 73 is
  caught by the *first* handler, not propagated;
* the local variables `page`, `port`, `close_callback` are assigned only
  on lines 75–90, *after* the existence check, so when the handler runs
  for the not-found error it evaluates an unbound local and raises
  `NameError`;
* an exception raised inside an `except` block propagates to the caller —
  the later `except Exception:` clause of the same `try` does not catch
  it.

Path resolution (`sys.frozen`, `misc.find_path`, the explicit
`builded_gui_path`) only determines which directory is tested; it is
abstracted into `webExists`, the result of `gui_path.exists()`. -/

/-- Python exception kinds relevant to `run_gui`. -/
inductive PyExc where
  | fileNotFound
  | osError
  | nameError
  | otherExc
deriving DecidableEq, Repr

/-- Python's exception-class test `isinstance(e, OSError)`:
`FileNotFoundError` is a subclass of `OSError`. -/
def isOSError : PyExc → Bool
  | .fileNotFound => true
  | .osError => true
  | _ => false

/-- What a `run_gui` call does as observed by its caller. -/
inductive GuiOutcome where
  | ok
  | swallowed
  | raised (e : PyExc)
deriving DecidableEq, Repr

/-- External outcomes for one `run_gui` call: whether the resolved
web-asset directory exists, and what the two `eel.start` attempts would
raise (`none` = success). -/
structure GuiEnv where
  webExists : Bool
  startExc : Option PyExc
  fallbackExc : Option PyExc

/-- The `try`-body of `run_gui` (lines 44–114): raise `FileNotFoundError`
when the assets are missing — at that point `page` is not yet bound —
otherwise assign `page` & co. and run `eel.start`.  Returns the escaping
exception (if any) and whether `page` was bound when it escaped. -/
def run_gui_body (env : GuiEnv) : Option PyExc × Bool :=
  if !env.webExists then (some .fileNotFound, false)
  else
    match env.startExc with
    | none => (none, true)
    | some e => (some e, true)

/-- `run_gui` (lines 28–120): body plus the two handlers.  The `OSError`
handler reruns `eel.start(page, mode='edge', ...)`; evaluating `page`
when it is unbound raises `NameError`, which propagates (the
`except Exception:` clause of the same `try` does not apply to it). -/
def run_gui (env : GuiEnv) : GuiOutcome :=
  match run_gui_body env with
  | (none, _) => .ok
  | (some e, pageBound) =>
    if isOSError e then
      if pageBound then
        match env.fallbackExc with
        | none => .ok
        | some e2 => .raised e2
      else .raised .nameError
    else .swallowed

/-- **C7** (claim vs. code): when the resolved web-asset directory does
not exist, the caller never sees the `FileNotFoundError` — the `except
OSError:` handler catches it (FileNotFoundError ⊂ OSError), attempts the
Edge fallback, and dies on the unbound `page` local, so a `NameError`
from the fallback attempt surfaces instead. -/
theorem C7_web_not_found_is_caught :
    ∀ env : GuiEnv, env.webExists = false →
      run_gui env = .raised .nameError ∧
        run_gui env ≠ .raised .fileNotFound := by
  intro env h
  have : run_gui env = .raised .nameError := by
    rw [run_gui, run_gui_body, h]
    rfl
  exact ⟨this, by rw [this]; decide⟩

/-- Witness for C7: a run with a missing asset directory (everything else
healthy). -/
theorem C7_web_not_found_is_caught_witness :
    run_gui { webExists := false, startExc := none, fallbackExc := none } =
        .raised .nameError ∧
      run_gui { webExists := false, startExc := none, fallbackExc := none } ≠
        .raised .fileNotFound :=
  C7_web_not_found_is_caught
    { webExists := false, startExc := none, fallbackExc := none } rfl

/-! ## Doc stub regenerator (`mypythontools/utils.py`,
`sphinx_docs_regenerate`, cleanup loop of lines 402–415)

The loop iterates over the entries directly under `docs/source` and calls
`p.unlink()` on every entry whose name is not in the allow-list union the
caller's `exclude_paths`; `try ... except Exception: pass` swallows any
deletion failure (for instance `unlink` on a directory), leaving that
entry in place.  An entry is modelled by its name and whether its
`unlink()` call would succeed. -/

/-- An entry of the `docs/source` directory. -/
structure DirEntry where
  name : String
  unlinkOk : Bool
deriving DecidableEq, Repr

/-- The fixed allow-list of the cleanup loop. -/
def sphinxKeepNames : List String := ["conf.py", "index.rst", "_static", "_templates"]

/-- The cleanup loop: the entries still present after it ran.  An entry
survives when its name is allow-listed (or excluded by the caller) or
when its deletion attempt failed and the error was swallowed. -/
def sphinx_cleanup (exclude : List String) : List DirEntry → List DirEntry
  | [] => []
  | p :: rest =>
    if p.name ∈ sphinxKeepNames ++ exclude then p :: sphinx_cleanup exclude rest
    else if p.unlinkOk then sphinx_cleanup exclude rest
    else p :: sphinx_cleanup exclude rest

/-- **C8**: for every directory state and caller-supplied exclude list,
the cleanup keeps every allow-listed entry untouched, only ever deletes
entries whose names are outside the allow-list union the excludes (and,
when every such deletion succeeds, deletes exactly those), never aborts,
and keeps (error swallowed) any entry whose deletion fails. -/
theorem C8_cleanup_filter :
    ∀ (exclude : List String) (entries : List DirEntry),
      (∀ e ∈ entries, e.name ∈ sphinxKeepNames ++ exclude →
        e ∈ sphinx_cleanup exclude entries) ∧
      (∀ e ∈ entries, e ∉ sphinx_cleanup exclude entries →
        e.name ∉ sphinxKeepNames ++ exclude) ∧
      ((∀ e ∈ entries, e.unlinkOk = true) →
        sphinx_cleanup exclude entries =
          entries.filter (fun e => decide (e.name ∈ sphinxKeepNames ++ exclude))) ∧
      (∀ e ∈ entries, e.unlinkOk = false → e ∈ sphinx_cleanup exclude entries) := by
  intro exclude entries
  induction entries with
  | nil => exact ⟨by simp, by simp, by simp [sphinx_cleanup], by simp⟩
  | cons p rest ih =>
    obtain ⟨ih1, ih2, ih3, ih4⟩ := ih
    refine ⟨?_, ?_, ?_, ?_⟩
    · intro e he hkeep
      rcases List.mem_cons.1 he with he | he
      · subst he
        rw [sphinx_cleanup, if_pos hkeep]
        exact List.mem_cons_self _ _
      · rw [sphinx_cleanup]
        split
        · exact List.mem_cons_of_mem _ (ih1 e he hkeep)
        · split
          · exact ih1 e he hkeep
          · exact List.mem_cons_of_mem _ (ih1 e he hkeep)
    · intro e he hnotin hkeep
      rw [sphinx_cleanup] at hnotin
      rcases List.mem_cons.1 he with he | he
      · subst he
        rw [if_pos hkeep] at hnotin
        exact hnotin (List.mem_cons_self _ _)
      · split at hnotin
        · exact ih2 e he (fun hc => hnotin (List.mem_cons_of_mem _ hc)) hkeep
        · split at hnotin
          · exact ih2 e he hnotin hkeep
          · exact ih2 e he (fun hc => hnotin (List.mem_cons_of_mem _ hc)) hkeep
    · intro hall
      have hrest := ih3 (fun e he => hall e (List.mem_cons_of_mem p he))
      rw [sphinx_cleanup]
      split
      · rename_i hkeep
        rw [hrest]
        simp only [List.filter_cons]
        rw [if_pos (decide_eq_true hkeep)]
      · rename_i hkeep
        rw [if_pos (hall p (List.mem_cons_self p rest)), hrest]
        simp only [List.filter_cons]
        rw [if_neg (fun hc => absurd (of_decide_eq_true hc) hkeep)]
    · intro e he hfail
      rcases List.mem_cons.1 he with he | he
      · subst he
        rw [sphinx_cleanup]
        split
        · exact List.mem_cons_self _ _
        · rw [if_neg (by simp [hfail])]
          exact List.mem_cons_self _ _
      · rw [sphinx_cleanup]
        split
        · exact List.mem_cons_of_mem _ (ih4 e he hfail)
        · split
          · exact ih4 e he hfail
          · exact List.mem_cons_of_mem _ (ih4 e he hfail)

/-- Witness for C8 on a concrete directory: `conf.py` and an excluded
`notes.rst` are kept, a stale `old.rst` would be deleted (and is, all
unlinks succeeding), and an undeletable `_build` directory is kept with
its error swallowed. -/
theorem C8_cleanup_filter_witness :
    DirEntry.mk "conf.py" true ∈
      sphinx_cleanup ["notes.rst"]
        [⟨"conf.py", true⟩, ⟨"old.rst", true⟩, ⟨"notes.rst", true⟩] ∧
    (DirEntry.mk "old.rst" true ∈
        [DirEntry.mk "conf.py" true, ⟨"old.rst", true⟩, ⟨"notes.rst", true⟩] →
      DirEntry.mk "old.rst" true ∉
        sphinx_cleanup ["notes.rst"]
          [⟨"conf.py", true⟩, ⟨"old.rst", true⟩, ⟨"notes.rst", true⟩] →
      ("old.rst" : String) ∉ sphinxKeepNames ++ ["notes.rst"]) ∧
    sphinx_cleanup ["notes.rst"]
        [⟨"conf.py", true⟩, ⟨"old.rst", true⟩, ⟨"notes.rst", true⟩] =
      List.filter (fun e => decide (e.name ∈ sphinxKeepNames ++ ["notes.rst"]))
        [⟨"conf.py", true⟩, ⟨"old.rst", true⟩, ⟨"notes.rst", true⟩] ∧
    DirEntry.mk "_build" false ∈ sphinx_cleanup [] [⟨"_build", false⟩] :=
  ⟨(C8_cleanup_filter ["notes.rst"]
      [⟨"conf.py", true⟩, ⟨"old.rst", true⟩, ⟨"notes.rst", true⟩]).1
      ⟨"conf.py", true⟩ (by decide) (by decide),
   (C8_cleanup_filter ["notes.rst"]
      [⟨"conf.py", true⟩, ⟨"old.rst", true⟩, ⟨"notes.rst", true⟩]).2.1
      ⟨"old.rst", true⟩,
   (C8_cleanup_filter ["notes.rst"]
      [⟨"conf.py", true⟩, ⟨"old.rst", true⟩, ⟨"notes.rst", true⟩]).2.2.1
      (by decide),
   (C8_cleanup_filter [] [⟨"_build", false⟩]).2.2.2
      ⟨"_build", false⟩ (by decide) rfl⟩

end Mypythontools
